import Mathlib

/-!
Verification of the Robyn (Python port) model-search and Pareto-selection
engine against its natural-language specification.

The definitions below are shallow embeddings of the functions in
`src/python/src/robyn/modeling/…`.  Floating-point series are modelled as
lists of rationals (`ℚ`) where the code performs only field operations and
comparisons, and as lists of reals (`ℝ`) where the code takes real powers
(`x ** alpha`) or square roots.  A float NaN produced by a division `0/0`
is modelled by `Option` (`none` = NaN), since Lean's `x / 0 = 0` junk value
would silently hide the division by zero.  The global numpy random state
used by `_prepare_data` is modelled by explicit state passing: a stream
`noise : ℕ → ℝ` of standard-normal draws together with a cursor position
that each call advances.
-/

namespace ParetoOpt

/-- A point of the objective space: `x` is the candidate's NRMSE and `y`
its `decomp.rssd`, exactly the two columns `_pareto_fronts` copies into its
working dataframe. -/
structure Point where
  x : ℚ
  y : ℚ
deriving DecidableEq

/-- Lexicographic comparison used by `data.sort_values(by=["x","y"],
ascending=[True,True])`. -/
def lexLe (p q : Point) : Bool :=
  decide (p.x < q.x) || (decide (p.x = q.x) && decide (p.y ≤ q.y))

/-- Insertion of a point into a lexicographically sorted list
(`sort_values` is a stable sort; insertion sort is one). -/
def insertLex (p : Point) : List Point → List Point
  | [] => [p]
  | q :: rest => if lexLe p q then p :: q :: rest else q :: insertLex p rest

/-- The sort performed by `_pareto_fronts` before its front-extraction
loop. -/
def sortLex : List Point → List Point
  | [] => []
  | p :: rest => insertLex p (sortLex rest)

/-- The `is_pareto` test of `_pareto_fronts`
(`lambda row: all((row["y"] <= data["y"]) & (row["x"] <= data["x"]))`):
the row is marked iff it is at or below EVERY remaining point in both
coordinates simultaneously. -/
def isParetoCode (p : Point) (data : List Point) : Bool :=
  data.all (fun q => decide (p.y ≤ q.y) && decide (p.x ≤ q.x))

/-- One iteration of the `while` body of `_pareto_fronts`: the rows marked
by `is_pareto` become the next front, the rest remain. -/
def frontStep (data : List Point) : List Point × List Point :=
  (data.filter (fun p => isParetoCode p data),
   data.filter (fun p => ! isParetoCode p data))

/-- The `while` loop of `_pareto_fronts` for an integer `pareto_fronts`
argument: `k` fronts are extracted (the loop condition `i <= int(pareto_fronts)`),
labelling the `i`-th extracted subset with front number `i`.  With
`pareto_fronts="auto"` the same body runs with no bound on `i`, so it
terminates only if every point is eventually removed. -/
def paretoFrontsLoop : ℕ → ℕ → List Point → List (Point × ℕ)
  | 0, _, _ => []
  | _ + 1, _, [] => []
  | k + 1, i, data =>
    let front := (frontStep data).1
    let rest := (frontStep data).2
    front.map (fun p => (p, i)) ++ paretoFrontsLoop k (i + 1) rest

/-- `ParetoOptimizer._pareto_fronts` with an integer front count `k`:
sort by `(x, y)`, then repeatedly extract `is_pareto` rows. -/
def pareto_fronts (k : ℕ) (input : List Point) : List (Point × ℕ) :=
  paretoFrontsLoop k 1 (sortLex input)

/-- `q` dominates `p` in the standard Pareto sense used by the claim:
both metrics of `q` are ≤ those of `p` and at least one is strictly
smaller. -/
def dominates (q p : Point) : Bool :=
  decide (q.x ≤ p.x) && decide (q.y ≤ p.y) &&
    (decide (q.x < p.x) || decide (q.y < p.y))

/-- A point is non-dominated within a population iff no member dominates
it (this is the claim's definition of front-1 membership). -/
def nondominated (p : Point) (pop : List Point) : Bool :=
  pop.all (fun q => ! dominates q p)

end ParetoOpt

namespace FeatureEng

/-- Auxiliary recursion for `MMMData`-side
`FeatureEngineering._geometric_adstock`, which is
`x.ewm(alpha=1-theta, adjust=False).mean()`.  With `adjust=False` pandas
computes `y[0] = x[0]` and `y[t] = (1-a)*y[t-1] + a*x[t]` for
`a = 1 - theta`, i.e. `y[t] = theta*y[t-1] + (1-theta)*x[t]`. -/
def ewmAux (theta prev : ℚ) : List ℚ → List ℚ
  | [] => []
  | v :: rest =>
    (theta * prev + (1 - theta) * v) :: ewmAux theta (theta * prev + (1 - theta) * v) rest

/-- `FeatureEngineering._geometric_adstock` (the pandas `ewm(...).mean()`
implementation). -/
def geometric_adstock (x : List ℚ) (theta : ℚ) : List ℚ :=
  match x with
  | [] => []
  | v :: rest => v :: ewmAux theta v rest

end FeatureEng

namespace RidgeModel

/-- Auxiliary recursion for `RidgeModelBuilder._geometric_adstock`:
`y = x.copy(); for i in 1..: y[i] += theta * y[i-1]`, so
`y[0] = x[0]` and `y[t] = x[t] + theta*y[t-1]`. -/
def geometricAdstockAux (theta prev : ℚ) : List ℚ → List ℚ
  | [] => []
  | v :: rest => (v + theta * prev) :: geometricAdstockAux theta (v + theta * prev) rest

/-- `RidgeModelBuilder._geometric_adstock` (the in-place left-to-right
scan). -/
def geometric_adstock (x : List ℚ) (theta : ℚ) : List ℚ :=
  match x with
  | [] => []
  | v :: rest => v :: geometricAdstockAux theta v rest

end RidgeModel

/-- The claim's geometric-adstock recurrence (`y[0] = x[0]`,
`y[t] = x[t] + theta*y[t-1]`), stated as a predicate on an input/output
pair of series. -/
def geomRecurrence (x y : List ℚ) (theta : ℚ) : Prop :=
  y.length = x.length ∧
  (0 < x.length → y.getD 0 0 = x.getD 0 0) ∧
  ∀ t, 0 < t → t < x.length → y.getD t 0 = x.getD t 0 + theta * y.getD (t - 1) 0

/-- C1.  The claim says `_pareto_fronts` labels as front 1 exactly the
non-dominated subset.  On the population `{(0,1), (1,0)}` both points are
non-dominated (neither dominates the other), yet the code's `is_pareto`
test is false for both (each would have to be ≤ the other in BOTH
coordinates), so with an integer front count no point is ever assigned a
front (the returned dataframe is empty), and the loop body removes nothing
— with `pareto_fronts="auto"` the `while` loop therefore never
terminates. -/
theorem c1_pareto_fronts_failing_eval :
    ParetoOpt.pareto_fronts 3 [⟨0, 1⟩, ⟨1, 0⟩] = [] ∧
    ParetoOpt.nondominated ⟨0, 1⟩ [⟨0, 1⟩, ⟨1, 0⟩] = true ∧
    ParetoOpt.nondominated ⟨1, 0⟩ [⟨0, 1⟩, ⟨1, 0⟩] = true ∧
    ParetoOpt.frontStep (ParetoOpt.sortLex [⟨0, 1⟩, ⟨1, 0⟩]) =
      ([], ParetoOpt.sortLex [⟨0, 1⟩, ⟨1, 0⟩]) := by
  decide

/-- C4.  On the input series `x = [0, 1]` with `theta = 1/2`, the
`FeatureEngineering._geometric_adstock` implementation (pandas
`ewm(alpha=1-theta, adjust=False).mean()`) returns `[0, 1/2]`: its second
output `1/2` violates the claimed recurrence value
`x[1] + theta*y[0] = 1` and drops below the non-negative input `x[1] = 1`.
The `RidgeModelBuilder._geometric_adstock` scan on the same input does
satisfy the claimed recurrence. -/
theorem c4_adstock_failing_eval :
    FeatureEng.geometric_adstock [0, 1] (1/2) = [0, 1/2] ∧
    ¬ ((1 : ℚ)/2 = 1 + (1/2) * 0) ∧
    ¬ ((1 : ℚ) ≤ 1/2) ∧
    RidgeModel.geometric_adstock [0, 1] (1/2) = [0, 1] ∧
    geomRecurrence [0, 1] (RidgeModel.geometric_adstock [0, 1] (1/2)) (1/2) := by
  have hF : FeatureEng.geometric_adstock [0, 1] (1/2) = [0, 1/2] := by
    norm_num [FeatureEng.geometric_adstock, FeatureEng.ewmAux]
  have hR : RidgeModel.geometric_adstock [0, 1] (1/2) = [0, 1] := by
    norm_num [RidgeModel.geometric_adstock, RidgeModel.geometricAdstockAux]
  refine ⟨hF, by norm_num, by norm_num, hR, ?_, ?_, ?_⟩
  · rw [hR]
  · intro _
    rw [hR]
  · intro t ht htl
    rw [hR]
    simp only [List.length_cons, List.length_nil] at htl
    interval_cases t
    · norm_num [List.getD]

namespace RidgeModel

/-- A hyperparameter value as stored in `Hyperparameters.hyperparameters`:
either a fixed scalar or a list (a 2-element list is a `[lower, upper]`
search bound). -/
inductive HypVal where
  | scalar (v : ℚ)
  | listVal (vs : List ℚ)
deriving DecidableEq

/-- `RidgeModelBuilder._hyper_collector`'s split of the hyperparameter
dictionary: values that are 2-element lists go to
`hyper_bound_list_updated` (first component), everything else to
`hyper_bound_list_fixed` (second component). -/
def hyper_collector : List (String × HypVal) → List (String × List ℚ) × List (String × HypVal)
  | [] => ([], [])
  | (n, v) :: rest =>
    let prev := hyper_collector rest
    match v with
    | .listVal vs =>
      if vs.length = 2 then ((n, vs) :: prev.1, prev.2)
      else (prev.1, (n, .listVal vs) :: prev.2)
    | .scalar q => (prev.1, (n, .scalar q) :: prev.2)

/-- The optimizer-construction fragment of
`RidgeModelBuilder._run_nevergrad_optimization` (lines 336-345): it builds
one `ng.p.Scalar` per entry of `hyper_bound_list_updated` and invokes the
nevergrad optimizer on that instrumentation unconditionally; the returned
number is the dimension of the instrumentation.  No emptiness check is
performed. -/
def run_nevergrad_setup (updated : List (String × List ℚ)) : Except String ℕ :=
  Except.ok updated.length

/-- `BaseModelExecutor._setup_nevergrad_optimizer`: raises `ValueError`
when there is nothing to optimize, otherwise builds the optimizer.  (This
method is never called by `RidgeModelBuilder`.) -/
def setup_nevergrad_optimizer (toOptimize : List (String × List ℚ)) : Except String ℕ :=
  if toOptimize.isEmpty then
    Except.error "No hyperparameters to optimize. Please check your hyperparameter configuration."
  else Except.ok toOptimize.length

end RidgeModel

/-- C6.  With a configuration whose hyperparameters are all fixed scalars
(no 2-element `[lower, upper]` bounds), `_hyper_collector` produces an
empty `hyper_bound_list_updated`; the actual search loop
(`_run_nevergrad_optimization`) then invokes the nevergrad optimizer with
a zero-dimensional instrumentation without raising, while the
"no hyperparameters to optimize" check exists only in
`BaseModelExecutor._setup_nevergrad_optimizer`, which the ridge search
path never calls. -/
theorem c6_zero_dim_failing_eval :
    (RidgeModel.hyper_collector [("tv_thetas", RidgeModel.HypVal.scalar (3/10))]).1 = [] ∧
    RidgeModel.run_nevergrad_setup [] = Except.ok 0 ∧
    RidgeModel.setup_nevergrad_optimizer [] =
      Except.error "No hyperparameters to optimize. Please check your hyperparameter configuration." := by
  exact ⟨rfl, rfl, rfl⟩

/-- Minimum of a list of rationals, `0` on the empty list (mirrors
`np.min` applied to a nonempty metric vector). -/
def listMinQ : List ℚ → ℚ
  | [] => 0
  | h :: t => t.foldl min h

/-- Maximum of a list of rationals, `0` on the empty list (mirrors
`np.max`). -/
def listMaxQ : List ℚ → ℚ
  | [] => 0
  | h :: t => t.foldl max h

theorem foldl_min_le_acc (t : List ℚ) : ∀ a : ℚ, t.foldl min a ≤ a := by
  induction t with
  | nil => intro a; simp
  | cons x t ih =>
    intro a
    calc (x :: t : List ℚ).foldl min a = t.foldl min (min a x) := by simp [List.foldl]
    _ ≤ min a x := ih (min a x)
    _ ≤ a := min_le_left a x

theorem foldl_min_le_mem (t : List ℚ) : ∀ (a x : ℚ), x ∈ t → t.foldl min a ≤ x := by
  induction t with
  | nil => intro a x hx; simp at hx
  | cons y t ih =>
    intro a x hx
    rcases List.mem_cons.mp hx with h | h
    · rw [h]
      calc (y :: t : List ℚ).foldl min a = t.foldl min (min a y) := by simp [List.foldl]
      _ ≤ min a y := foldl_min_le_acc t (min a y)
      _ ≤ y := min_le_right a y
    · simpa [List.foldl] using ih (min a y) x h

theorem listMinQ_le (l : List ℚ) (x : ℚ) (hx : x ∈ l) : listMinQ l ≤ x := by
  cases l with
  | nil => simp at hx
  | cons h t =>
    rcases List.mem_cons.mp hx with rfl | hm
    · simpa [listMinQ] using foldl_min_le_acc t x
    · exact foldl_min_le_mem t h x hm

theorem acc_le_foldl_max (t : List ℚ) : ∀ a : ℚ, a ≤ t.foldl max a := by
  induction t with
  | nil => intro a; simp
  | cons x t ih =>
    intro a
    calc a ≤ max a x := le_max_left a x
    _ ≤ t.foldl max (max a x) := ih (max a x)
    _ = (x :: t : List ℚ).foldl max a := by simp [List.foldl]

theorem mem_le_foldl_max (t : List ℚ) : ∀ (a x : ℚ), x ∈ t → x ≤ t.foldl max a := by
  induction t with
  | nil => intro a x hx; simp at hx
  | cons y t ih =>
    intro a x hx
    rcases List.mem_cons.mp hx with h | h
    · rw [h]
      calc y ≤ max a y := le_max_right a y
      _ ≤ t.foldl max (max a y) := acc_le_foldl_max t (max a y)
      _ = (y :: t : List ℚ).foldl max a := by simp [List.foldl]
    · simpa [List.foldl] using ih (max a y) x h

theorem le_listMaxQ (l : List ℚ) (x : ℚ) (hx : x ∈ l) : x ≤ listMaxQ l := by
  cases l with
  | nil => simp at hx
  | cons h t =>
    rcases List.mem_cons.mp hx with rfl | hm
    · simpa [listMaxQ] using acc_le_foldl_max t x
    · exact mem_le_foldl_max t h x hm

theorem foldl_min_const (t : List ℚ) : ∀ a : ℚ, (∀ x ∈ t, x = a) → t.foldl min a = a := by
  induction t with
  | nil => intro a _; simp
  | cons y t ih =>
    intro a h
    have hy : y = a := h y (List.mem_cons_self y t)
    subst hy
    simpa [List.foldl] using ih y (fun x hx => h x (List.mem_cons_of_mem y hx))

theorem foldl_max_const (t : List ℚ) : ∀ a : ℚ, (∀ x ∈ t, x = a) → t.foldl max a = a := by
  induction t with
  | nil => intro a _; simp
  | cons y t ih =>
    intro a h
    have hy : y = a := h y (List.mem_cons_self y t)
    subst hy
    simpa [List.foldl] using ih y (fun x hx => h x (List.mem_cons_of_mem y hx))

/-- For the min-max normalisation `(v - min) / (max - min)` the
denominator is zero exactly when every value in the list is the same. -/
theorem maxEqMin_iff_all_eq (l : List ℚ) :
    listMaxQ l = listMinQ l ↔ ∀ a ∈ l, ∀ b ∈ l, a = b := by
  constructor
  · intro h a ha b hb
    have h1 : a ≤ listMaxQ l := le_listMaxQ l a ha
    have h2 : listMinQ l ≤ a := listMinQ_le l a ha
    have h3 : b ≤ listMaxQ l := le_listMaxQ l b hb
    have h4 : listMinQ l ≤ b := listMinQ_le l b hb
    have ha' : a = listMinQ l := le_antisymm (h ▸ h1) h2
    have hb' : b = listMinQ l := le_antisymm (h ▸ h3) h4
    rw [ha', hb']
  · intro h
    cases l with
    | nil => rfl
    | cons x t =>
      have hall : ∀ y ∈ t, y = x := fun y hy =>
        h y (List.mem_cons_of_mem x hy) x (List.mem_cons_self x t)
      simp only [listMaxQ, listMinQ]
      rw [foldl_max_const t x hall, foldl_min_const t x hall]

namespace RidgeModel

/-- One entry of the `output_models` list handed to
`RidgeModelBuilder._select_best_model`: the per-trial NRMSE,
`decomp.rssd` and solution identifier retained in the `Trial`. -/
structure TrialRow where
  nrmse : ℚ
  decompRssd : ℚ
  solID : String
deriving DecidableEq

/-- The min-max normalisation `(v - np.min(v)) / (np.max(v) - np.min(v))`
performed by `_select_best_model` on a metric vector.  When
`max = min` every entry is the float NaN `0/0`; this is modelled by
`none`. -/
def normalizeVals (vs : List ℚ) : Option (List ℚ) :=
  if listMaxQ vs = listMinQ vs then none
  else some (vs.map (fun v => (v - listMinQ vs) / (listMaxQ vs - listMinQ vs)))

/-- First index of the minimal entry (`np.argmin`). -/
def argminIdx (l : List ℚ) : ℕ :=
  l.findIdx (fun v => decide (v = listMinQ l))

/-- `RidgeModelBuilder._select_best_model`: normalise both metric vectors,
add them, and return the `sol_id` of the trial with the smallest combined
score.  `none` models the all-NaN score vector obtained whenever either
normalisation divides by zero. -/
def select_best_model (trials : List TrialRow) : Option String :=
  match normalizeVals (trials.map (·.nrmse)), normalizeVals (trials.map (·.decompRssd)) with
  | some nn, some rn =>
    let combined := List.zipWith (· + ·) nn rn
    some ((trials.getD (argminIdx combined) ⟨0, 0, ""⟩).solID)
  | _, _ => none

theorem normalizeVals_isSome (vs : List ℚ) :
    (normalizeVals vs).isSome = true ↔ ∃ a ∈ vs, ∃ b ∈ vs, a ≠ b := by
  by_cases h : listMaxQ vs = listMinQ vs
  · simp only [normalizeVals, if_pos h, Option.isSome_none]
    constructor
    · intro hfalse; cases hfalse
    · rintro ⟨a, ha, b, hb, hab⟩
      exact absurd ((maxEqMin_iff_all_eq vs).mp h a ha b hb) hab
  · simp only [normalizeVals, if_neg h, Option.isSome_some, true_iff]
    have := (not_iff_not.mpr (maxEqMin_iff_all_eq vs)).mp h
    push_neg at this
    obtain ⟨a, ha, b, hb, hab⟩ := this
    exact ⟨a, ha, b, hb, hab⟩

end RidgeModel

/-- C10.  `_select_best_model` min-max normalises the trials' NRMSE and
`decomp.rssd` vectors by dividing by `(max - min)`; its combined score
(and hence the returned solution identifier) is a well-defined (non-NaN)
value exactly when the trials show at least two distinct NRMSE values and
at least two distinct `decomp.rssd` values.  In particular a single trial,
or trials with identical values in either metric, makes the normalisation
divide by zero, so every score is NaN. -/
theorem c10_select_best_defined (trials : List RidgeModel.TrialRow) :
    (RidgeModel.select_best_model trials).isSome = true ↔
      ((∃ a ∈ trials.map (·.nrmse), ∃ b ∈ trials.map (·.nrmse), a ≠ b) ∧
       (∃ a ∈ trials.map (·.decompRssd), ∃ b ∈ trials.map (·.decompRssd), a ≠ b)) := by
  rw [← RidgeModel.normalizeVals_isSome, ← RidgeModel.normalizeVals_isSome]
  unfold RidgeModel.select_best_model
  rcases h1 : RidgeModel.normalizeVals (trials.map (·.nrmse)) with _ | nn <;>
    rcases h2 : RidgeModel.normalizeVals (trials.map (·.decompRssd)) with _ | rn <;>
    simp [h1, h2]

namespace ParetoOpt

/-- The pandas `Series.quantile(q)` with the default linear interpolation:
sort the values, put `h = q * (n - 1)`, `i = floor h`, and return
`v[i] + (h - i) * (v[i+1] - v[i])` (the value itself when `h` is an
integer).  Returns `0` on an empty series (pandas would return NaN; the
admissibility theorem uses it uniformly on both sides, so the junk value
is never compared against anything else). -/
def quantileLinear (l : List ℚ) (q : ℚ) : ℚ :=
  let s := List.insertionSort (· ≤ ·) l
  match s with
  | [] => 0
  | _ :: _ =>
    let h : ℚ := q * ((s.length : ℚ) - 1)
    let i : ℕ := (Int.floor h).toNat
    let vi := s.getD i 0
    let vi1 := s.getD (i + 1) vi
    vi + (h - (i : ℚ)) * (vi1 - vi)

/-- One row of the aggregated `result_hyp_param` population, with the
columns used by the admissibility filter of `_compute_pareto_fronts`. -/
structure CandRow where
  solID : ℕ
  mape : ℚ
  nrmse : ℚ
  decompRssd : ℚ
deriving DecidableEq

/-- The admissibility filter of `_compute_pareto_fronts` (non-fixed
branch): compute the `calibration_constraint` quantile of `mape` and the
0.9 quantiles of `nrmse` and `decomp.rssd` over the whole population, mark
each row with the conjunction `mape.qt10`, and keep the marked rows
(`resultHypParam[resultHypParam["mape.qt10"] == True]`). -/
def compute_admissible (pop : List CandRow) (calibrationConstraint : ℚ) : List CandRow :=
  let mapeLiftQuantile10 := quantileLinear (pop.map (·.mape)) calibrationConstraint
  let nrmseQuantile90 := quantileLinear (pop.map (·.nrmse)) (9/10)
  let decompRssdQuantile90 := quantileLinear (pop.map (·.decompRssd)) (9/10)
  pop.filter (fun r =>
    decide (r.mape ≤ mapeLiftQuantile10) &&
    decide (r.nrmse ≤ nrmseQuantile90) &&
    decide (r.decompRssd ≤ decompRssdQuantile90))

end ParetoOpt

/-- C7.  In the non-fixed-hyperparameter branch of
`_compute_pareto_fronts`, a candidate row is kept as admissible (and hence
is eligible for Pareto-front assignment) if and only if its calibration
error is at or below the `calibration_constraint` quantile of the
population's `mape` column, its NRMSE is at or below the population's 0.9
quantile of `nrmse`, and its `decomp.rssd` is at or below the population's
0.9 quantile of `decomp.rssd`. -/
theorem c7_admissibility (pop : List ParetoOpt.CandRow) (cc : ℚ) (c : ParetoOpt.CandRow) :
    c ∈ ParetoOpt.compute_admissible pop cc ↔
      (c ∈ pop ∧
       c.mape ≤ ParetoOpt.quantileLinear (pop.map (·.mape)) cc ∧
       c.nrmse ≤ ParetoOpt.quantileLinear (pop.map (·.nrmse)) (9/10) ∧
       c.decompRssd ≤ ParetoOpt.quantileLinear (pop.map (·.decompRssd)) (9/10)) := by
  simp [ParetoOpt.compute_admissible, List.mem_filter, and_assoc]

namespace ParetoOpt

/-- One row of the aggregated `result_hyp_param` table as seen by
`prepare_pareto_data`: its solution identifier and its Pareto-front label
`robynPareto` (`none` = the row was filtered out before front assignment,
i.e. the pandas NaN left by the left join). -/
structure HPRow where
  solID : ℕ
  robynPareto : Option ℕ
deriving DecidableEq

/-- `n_pareto = result_hyp_param["robynPareto"].notna().sum()`. -/
def nPareto (rows : List HPRow) : ℕ :=
  (rows.filter (fun r => r.robynPareto.isSome)).length

/-- The non-null front labels of the population, in row order. -/
def paretoLabels (rows : List HPRow) : List ℕ :=
  rows.filterMap (·.robynPareto)

/-- The distinct front labels sorted ascending — the group keys of
`groupby("robynPareto") ... sort_values("robynPareto")`. -/
def sortedLabels (rows : List HPRow) : List ℕ :=
  List.insertionSort (· ≤ ·) (paretoLabels rows).dedup

/-- `agg(n=("solID", "nunique"))` for the group with front label `k`. -/
def groupN (rows : List HPRow) (k : ℕ) : ℕ :=
  ((rows.filter (fun r => r.robynPareto = some k)).map (·.solID)).dedup.length

/-- `n_cum`, the cumulative sum of the per-front candidate counts in
ascending label order, evaluated at the group with label `k`. -/
def cumN (rows : List HPRow) (k : ℕ) : ℕ :=
  (((sortedLabels rows).filter (fun j => j ≤ k)).map (groupN rows)).sum

/-- `auto_pareto[auto_pareto["n_cum"] >= min_candidates].iloc[0]`: the
first group (in ascending label order) whose cumulative count reaches
`min_candidates`; `none` models the `IndexError` of `.iloc[0]` on an
empty selection. -/
def autoSelectedFront (rows : List HPRow) (minCandidates : ℕ) : Option ℕ :=
  (sortedLabels rows).find? (fun k => decide (minCandidates ≤ cumN rows k))

/-- The message of the `ValueError` raised by `prepare_pareto_data`. -/
def insufficientMsg (minCandidates : ℕ) : String :=
  "Less than " ++ toString minCandidates ++
    " candidates in pareto fronts. Increase iterations to get more model candidates or decrease min_candidates."

/-- The front-count resolution of `ParetoOptimizer.prepare_pareto_data`
(steps 3 and 4) for the `pareto_fronts="auto"` invocation: `hyper_fixed`
or a single-row population forces one front; otherwise, if the number of
front-labeled rows is `<= min_candidates` and the population has more
than one row and no trial was calibrated, the insufficient-candidates
`ValueError` is raised; otherwise the first front whose cumulative
candidate count reaches `min_candidates` is selected (an `IndexError`
escaping if no front reaches it). -/
def prepare_pareto_data (hyperFixed : Bool) (rows : List HPRow) (minCandidates : ℕ)
    (isCalibrated : Bool) : Except String ℕ :=
  if hyperFixed = true ∨ rows.length = 1 then Except.ok 1
  else if nPareto rows ≤ minCandidates ∧ 1 < rows.length ∧ isCalibrated = false then
    Except.error (insufficientMsg minCandidates)
  else
    match autoSelectedFront rows minCandidates with
    | some k => Except.ok k
    | none => Except.error "single positional indexer is out-of-bounds"

theorem filter_label_length_eq_count (rows : List HPRow) (j : ℕ) :
    (rows.filter (fun r => r.robynPareto = some j)).length = (paretoLabels rows).count j := by
  induction rows with
  | nil => rfl
  | cons r rest ih =>
    rcases hr : r.robynPareto with _ | m
    · simpa [paretoLabels, List.filterMap_cons, hr, List.filter_cons] using ih
    · by_cases hm : m = j
      · subst hm
        simp [paretoLabels, List.filterMap_cons, hr, List.filter_cons, List.count_cons, ih,
          paretoLabels]
      · simp [paretoLabels, List.filterMap_cons, hr, List.filter_cons, List.count_cons, ih,
          paretoLabels, hm]

theorem paretoLabels_length (rows : List HPRow) :
    (paretoLabels rows).length = nPareto rows := by
  induction rows with
  | nil => rfl
  | cons r rest ih =>
    rcases hr : r.robynPareto with _ | m <;>
      simp [paretoLabels, nPareto, List.filterMap_cons, hr, List.filter_cons] <;>
      simpa [paretoLabels, nPareto] using ih

theorem groupN_eq_count (rows : List HPRow) (j : ℕ)
    (hnd : (rows.map (·.solID)).Nodup) :
    groupN rows j = (paretoLabels rows).count j := by
  have hsub : List.Sublist ((rows.filter (fun r => r.robynPareto = some j)).map (·.solID))
      (rows.map (·.solID)) := (List.filter_sublist rows).map (·.solID)
  have hnodup : ((rows.filter (fun r => r.robynPareto = some j)).map (·.solID)).Nodup :=
    hnd.sublist hsub
  unfold groupN
  rw [List.dedup_eq_self.mpr hnodup, List.length_map]
  exact filter_label_length_eq_count rows j

theorem mem_le_foldr_max_nat (l : List ℕ) (j : ℕ) (hj : j ∈ l) : j ≤ l.foldr max 0 := by
  induction l with
  | nil => simp at hj
  | cons h t ih =>
    rcases List.mem_cons.mp hj with rfl | hm
    · exact le_max_left _ _
    · exact le_trans (ih hm) (le_max_right _ _)

theorem foldr_max_mem_nat (l : List ℕ) (hne : l ≠ []) : l.foldr max 0 ∈ l := by
  induction l with
  | nil => exact absurd rfl hne
  | cons h t ih =>
    cases t with
    | nil => simp
    | cons a s =>
      have hmem : (a :: s).foldr max 0 ∈ a :: s := ih (by simp)
      have hfold : (h :: a :: s : List ℕ).foldr max 0 = max h ((a :: s).foldr max 0) := rfl
      rcases max_choice h ((a :: s).foldr max 0) with hc | hc
      · rw [hfold, hc]; exact List.mem_cons_self _ _
      · rw [hfold, hc]; exact List.mem_cons_of_mem _ hmem

theorem cumN_total (rows : List HPRow) (hnd : (rows.map (·.solID)).Nodup) (k : ℕ)
    (hk : ∀ j ∈ sortedLabels rows, j ≤ k) :
    cumN rows k = nPareto rows := by
  unfold cumN
  rw [List.filter_eq_self.mpr (fun j hj => by simpa using hk j hj)]
  have hmap : (sortedLabels rows).map (groupN rows) =
      (sortedLabels rows).map (fun x => (paretoLabels rows).count x) := by
    exact List.map_congr_left (fun j _ => groupN_eq_count rows j hnd)
  rw [hmap]
  have hperm : List.Perm (sortedLabels rows) (paretoLabels rows).dedup :=
    List.perm_insertionSort _ _
  rw [(hperm.map (fun x => (paretoLabels rows).count x)).sum_eq]
  rw [List.sum_map_count_dedup_eq_length]
  exact paretoLabels_length rows

theorem find?_sorted_not_earlier {p : ℕ → Bool} :
    ∀ (l : List ℕ), l.Sorted (· ≤ ·) → ∀ k, l.find? p = some k →
      ∀ j ∈ l, j < k → p j = false := by
  intro l
  induction l with
  | nil => intro _ k hk; simp at hk
  | cons h t ih =>
    intro hs k hfind j hj hjk
    by_cases hp : p h = true
    · rw [List.find?_cons_of_pos _ hp] at hfind
      have hk : h = k := by injection hfind
      rcases List.mem_cons.mp hj with hjh | hm
      · rw [hjh, hk] at hjk
        exact absurd hjk (lt_irrefl k)
      · have hle : h ≤ j := List.rel_of_sorted_cons hs j hm
        rw [← hk] at hjk
        exact absurd (hle.trans_lt hjk) (lt_irrefl h)
    · rw [List.find?_cons_of_neg _ hp] at hfind
      rcases List.mem_cons.mp hj with hjh | hm
      · rw [hjh]
        exact Bool.eq_false_iff.mpr hp
      · exact ih (List.Sorted.of_cons hs) k hfind j hm hjk

end ParetoOpt

/-- C2 (counterexample to the claim as stated).  On the population with
two rows, exactly one of which carries front label 1, and
`min_candidates = 1`, the cumulative candidate count of front 1 is
`1 >= min_candidates`, so the threshold IS achievable — yet
`prepare_pareto_data` raises the insufficient-candidates error, because
its guard fires on `n_pareto <= min_candidates` (also at exact
equality). -/
theorem c2_auto_threshold_counterexample :
    ParetoOpt.prepare_pareto_data false [⟨0, some 1⟩, ⟨1, none⟩] 1 false =
      Except.error (ParetoOpt.insufficientMsg 1) ∧
    1 ≤ ParetoOpt.cumN [⟨0, some 1⟩, ⟨1, none⟩] 1 ∧
    ParetoOpt.nPareto [⟨0, some 1⟩, ⟨1, none⟩] = 1 := by
  refine ⟨rfl, by decide, by decide⟩

/-- C2 (amended).  For an uncalibrated, non-hyper-fixed run whose
population has more than one row and pairwise distinct solution IDs,
`prepare_pareto_data` under `pareto_fronts="auto"` raises an error if and
only if the number of front-labeled candidates is at most
`min_candidates` (note `<=`, not `<`: the error also fires when the
threshold is exactly achievable); otherwise it returns the smallest front
label whose cumulative candidate count (fronts accumulated in increasing
label order) reaches `min_candidates`. -/
theorem c2_auto_front_resolution_amended (rows : List ParetoOpt.HPRow) (minC : ℕ)
    (hnd : (rows.map (·.solID)).Nodup) (hlen : 1 < rows.length) :
    ((∃ e, ParetoOpt.prepare_pareto_data false rows minC false = Except.error e) ↔
        ParetoOpt.nPareto rows ≤ minC) ∧
    (∀ k, ParetoOpt.prepare_pareto_data false rows minC false = Except.ok k →
        k ∈ ParetoOpt.sortedLabels rows ∧ minC ≤ ParetoOpt.cumN rows k ∧
        ∀ j ∈ ParetoOpt.sortedLabels rows, j < k → ParetoOpt.cumN rows j < minC) := by
  have hne1 : ¬ ((false : Bool) = true ∨ rows.length = 1) := by
    push_neg
    exact ⟨by simp, by omega⟩
  by_cases hc : ParetoOpt.nPareto rows ≤ minC
  · have hprep : ParetoOpt.prepare_pareto_data false rows minC false =
        Except.error (ParetoOpt.insufficientMsg minC) := by
      unfold ParetoOpt.prepare_pareto_data
      rw [if_neg hne1, if_pos ⟨hc, hlen, rfl⟩]
    refine ⟨⟨fun _ => hc, fun _ => ⟨_, hprep⟩⟩, ?_⟩
    intro k hk
    rw [hprep] at hk
    cases hk
  · push_neg at hc
    have hlabellen : (ParetoOpt.paretoLabels rows).length = ParetoOpt.nPareto rows :=
      ParetoOpt.paretoLabels_length rows
    have hlabne : ParetoOpt.paretoLabels rows ≠ [] := by
      intro hnil
      rw [hnil] at hlabellen
      simp at hlabellen
      omega
    have hsortne : ParetoOpt.sortedLabels rows ≠ [] := by
      intro hnil
      have : (ParetoOpt.paretoLabels rows).dedup = [] := by
        have hperm : List.Perm (ParetoOpt.sortedLabels rows) (ParetoOpt.paretoLabels rows).dedup :=
          List.perm_insertionSort _ _
        have := hperm.length_eq
        rw [hnil] at this
        exact List.eq_nil_of_length_eq_zero this.symm
      exact hlabne ((List.dedup_eq_nil _).mp this)
    set M := (ParetoOpt.sortedLabels rows).foldr max 0 with hMdef
    have hM : M ∈ ParetoOpt.sortedLabels rows := ParetoOpt.foldr_max_mem_nat _ hsortne
    have hcumM : ParetoOpt.cumN rows M = ParetoOpt.nPareto rows :=
      ParetoOpt.cumN_total rows hnd M (fun j hj => ParetoOpt.mem_le_foldr_max_nat _ j hj)
    have hfind : ∃ k, ParetoOpt.autoSelectedFront rows minC = some k := by
      rw [← Option.isSome_iff_exists]
      unfold ParetoOpt.autoSelectedFront
      rw [List.find?_isSome]
      exact ⟨M, hM, by rw [decide_eq_true_eq]; omega⟩
    obtain ⟨k, hfind⟩ := hfind
    have hprep : ParetoOpt.prepare_pareto_data false rows minC false = Except.ok k := by
      unfold ParetoOpt.prepare_pareto_data
      rw [if_neg hne1, if_neg (by rintro ⟨h1, -, -⟩; omega), hfind]
    have hfind0 : (ParetoOpt.sortedLabels rows).find?
        (fun j => decide (minC ≤ ParetoOpt.cumN rows j)) = some k := hfind
    have hsorted : (ParetoOpt.sortedLabels rows).Sorted (· ≤ ·) :=
      List.sorted_insertionSort _ _
    refine ⟨⟨?_, ?_⟩, ?_⟩
    · rintro ⟨e, he⟩
      rw [hprep] at he
      cases he
    · intro h
      omega
    · intro k' hk'
      rw [hprep] at hk'
      have hkk : k' = k := by injection hk' with h; exact h.symm
      rw [hkk]
      refine ⟨List.mem_of_find?_eq_some hfind0, ?_, ?_⟩
      · have := List.find?_some hfind0
        rwa [decide_eq_true_eq] at this
      · intro j hj hjk
        have := ParetoOpt.find?_sorted_not_earlier _ hsorted k hfind0 j hj hjk
        rw [decide_eq_false_iff_not] at this
        omega

/-- Witness for the amended C2 theorem: a three-row population with
distinct solution IDs, two of which carry front label 1, and
`min_candidates = 1`. -/
theorem c2_auto_front_resolution_amended_witness :
    (([⟨0, some 1⟩, ⟨1, some 1⟩, ⟨2, none⟩] : List ParetoOpt.HPRow).map (·.solID)).Nodup ∧
    1 < ([⟨0, some 1⟩, ⟨1, some 1⟩, ⟨2, none⟩] : List ParetoOpt.HPRow).length ∧
    (((∃ e, ParetoOpt.prepare_pareto_data false [⟨0, some 1⟩, ⟨1, some 1⟩, ⟨2, none⟩] 1 false =
          Except.error e) ↔
        ParetoOpt.nPareto [⟨0, some 1⟩, ⟨1, some 1⟩, ⟨2, none⟩] ≤ 1) ∧
      (∀ k, ParetoOpt.prepare_pareto_data false [⟨0, some 1⟩, ⟨1, some 1⟩, ⟨2, none⟩] 1 false =
          Except.ok k →
        k ∈ ParetoOpt.sortedLabels [⟨0, some 1⟩, ⟨1, some 1⟩, ⟨2, none⟩] ∧
        1 ≤ ParetoOpt.cumN [⟨0, some 1⟩, ⟨1, some 1⟩, ⟨2, none⟩] k ∧
        ∀ j ∈ ParetoOpt.sortedLabels [⟨0, some 1⟩, ⟨1, some 1⟩, ⟨2, none⟩], j < k →
          ParetoOpt.cumN [⟨0, some 1⟩, ⟨1, some 1⟩, ⟨2, none⟩] j < 1)) :=
  ⟨by decide, by decide,
    c2_auto_front_resolution_amended [⟨0, some 1⟩, ⟨1, some 1⟩, ⟨2, none⟩] 1
      (by decide) (by decide)⟩

namespace RidgeModel

/-- The solution identifier string `f"{trial}_{iter_ng + 1}_1"` assigned
by `_run_nevergrad_optimization` (its `iterPar` index is always 1). -/
def solIDStr (trial iteration : ℕ) : String :=
  toString trial ++ "_" ++ toString iteration ++ "_1"

/-- The outputs of one `_evaluate_model` call that the loop inspects and
retains: the scalar loss and the accompanying metrics/hyperparameters of
that iteration (kept abstract as a bundle of rationals plus the raw
candidate parameters). -/
structure IterOut where
  loss : ℚ
  nrmse : ℚ
  decompRssd : ℚ
  mape : ℚ
  params : List (String × ℚ)
deriving DecidableEq

/-- The best-so-far record kept by the loop: the retained iteration's
outputs, its 1-based `iterNG` index, and its solution identifier. -/
structure BestRec where
  out : IterOut
  iterNG : ℕ
  solID : String
deriving DecidableEq

/-- The body of the iteration loop of `_run_nevergrad_optimization`: the
running best is replaced exactly when `loss < best_loss` (strict), so the
first-seen minimum is kept on ties.  `i` is the 0-based index of the
current iteration. -/
def runBest (trial : ℕ) : BestRec → ℕ → List IterOut → BestRec
  | b, _, [] => b
  | b, i, o :: rest =>
    if o.loss < b.out.loss then
      runBest trial ⟨o, i + 1, solIDStr trial (i + 1)⟩ (i + 1) rest
    else runBest trial b (i + 1) rest

/-- `_run_nevergrad_optimization`'s retention over a whole trial, as a
function of the per-iteration evaluation outputs: `best_loss` starts at
`float("inf")`, so the first iteration always becomes the initial best;
`none` is the zero-iteration case (in which the Python code would crash
building the `Trial` from `best_params = None`). -/
def run_nevergrad_optimization (trial : ℕ) (outs : List IterOut) : Option BestRec :=
  match outs with
  | [] => none
  | o :: rest => some (runBest trial ⟨o, 1, solIDStr trial 1⟩ 1 rest)

theorem runBest_min (t : ℕ) :
    ∀ (l : List IterOut) (b : BestRec) (i : ℕ),
      (runBest t b i l).out.loss ≤ b.out.loss ∧
      ∀ o ∈ l, (runBest t b i l).out.loss ≤ o.loss := by
  intro l
  induction l with
  | nil => intro b i; exact ⟨le_refl _, fun o ho => absurd ho (List.not_mem_nil o)⟩
  | cons o rest ih =>
    intro b i
    by_cases hlt : o.loss < b.out.loss
    · have hrec := ih ⟨o, i + 1, solIDStr t (i + 1)⟩ (i + 1)
      rw [runBest, if_pos hlt]
      refine ⟨le_trans hrec.1 (le_of_lt hlt), ?_⟩
      intro o' ho'
      rcases List.mem_cons.mp ho' with rfl | hm
      · exact hrec.1
      · exact hrec.2 o' hm
    · have hrec := ih b (i + 1)
      rw [runBest, if_neg hlt]
      refine ⟨hrec.1, ?_⟩
      intro o' ho'
      rcases List.mem_cons.mp ho' with rfl | hm
      · exact le_trans hrec.1 (le_of_not_lt hlt)
      · exact hrec.2 o' hm

theorem runBest_noimprove (t : ℕ) :
    ∀ (l : List IterOut) (b : BestRec) (i : ℕ),
      (∀ o ∈ l, ¬ o.loss < b.out.loss) → runBest t b i l = b := by
  intro l
  induction l with
  | nil => intro b i _; rfl
  | cons o rest ih =>
    intro b i h
    rw [runBest, if_neg (h o (List.mem_cons_self o rest))]
    exact ih b (i + 1) (fun o' ho' => h o' (List.mem_cons_of_mem o ho'))

theorem runBest_cases (t : ℕ) :
    ∀ (l : List IterOut) (b : BestRec) (i : ℕ),
      runBest t b i l = b ∨
      ∃ j, ∃ hj : j < l.length,
        runBest t b i l = ⟨l.get ⟨j, hj⟩, i + j + 1, solIDStr t (i + j + 1)⟩ ∧
        (l.get ⟨j, hj⟩).loss < b.out.loss ∧
        ∀ m, ∀ hm : m < j, (l.get ⟨j, hj⟩).loss < (l.get ⟨m, hm.trans hj⟩).loss := by
  intro l
  induction l with
  | nil => intro b i; exact Or.inl rfl
  | cons o rest ih =>
    intro b i
    by_cases hlt : o.loss < b.out.loss
    · rcases ih ⟨o, i + 1, solIDStr t (i + 1)⟩ (i + 1) with hid | ⟨j, hj, heq, hless, hfirst⟩
      · refine Or.inr ⟨0, by simp, ?_, hlt, ?_⟩
        · rw [runBest, if_pos hlt, hid]
          rfl
        · intro m hm
          exact absurd hm (Nat.not_lt_zero m)
      · refine Or.inr ⟨j + 1, by simpa using Nat.succ_lt_succ hj, ?_, ?_, ?_⟩
        · rw [runBest, if_pos hlt, heq]
          have : i + 1 + j + 1 = i + (j + 1) + 1 := by omega
          simp [List.get, this]
        · calc (rest.get ⟨j, hj⟩).loss < o.loss := hless
          _ < b.out.loss := hlt
        · intro m hm
          cases m with
          | zero => simpa using hless
          | succ m' =>
            have hm' : m' < j := Nat.lt_of_succ_lt_succ hm
            simpa using hfirst m' hm'
    · rcases ih b (i + 1) with hid | ⟨j, hj, heq, hless, hfirst⟩
      · exact Or.inl (by rw [runBest, if_neg hlt, hid])
      · refine Or.inr ⟨j + 1, by simpa using Nat.succ_lt_succ hj, ?_, hless, ?_⟩
        · rw [runBest, if_neg hlt, heq]
          have : i + 1 + j + 1 = i + (j + 1) + 1 := by omega
          simp [List.get, this]
        · intro m hm
          cases m with
          | zero =>
            have : (rest.get ⟨j, hj⟩).loss < b.out.loss := hless
            have hob : b.out.loss ≤ o.loss := le_of_not_lt hlt
            simpa using lt_of_lt_of_le this hob
          | succ m' =>
            have hm' : m' < j := Nat.lt_of_succ_lt_succ hm
            simpa using hfirst m' hm'

end RidgeModel

/-- C8.  For every trial with at least one iteration, the record emitted
at the end of `_run_nevergrad_optimization` is exactly the evaluation
output of the iteration with the minimal loss; on ties the earliest
(first-seen) iteration is retained (the update guard is the strict
`loss < best_loss`); and its solution identifier is the string
`f"{trial}_{iteration}_1"` built from that iteration's 1-based index. -/
theorem c8_best_retention (trial : ℕ) (outs : List RidgeModel.IterOut) (hne : outs ≠ []) :
    ∃ i, ∃ hi : i < outs.length,
      RidgeModel.run_nevergrad_optimization trial outs =
        some ⟨outs.get ⟨i, hi⟩, i + 1, RidgeModel.solIDStr trial (i + 1)⟩ ∧
      (∀ j, ∀ hj : j < outs.length, (outs.get ⟨i, hi⟩).loss ≤ (outs.get ⟨j, hj⟩).loss) ∧
      (∀ j, ∀ hj : j < i, (outs.get ⟨i, hi⟩).loss < (outs.get ⟨j, Nat.lt_trans hj hi⟩).loss) := by
  cases outs with
  | nil => exact absurd rfl hne
  | cons o rest =>
    have hrun : RidgeModel.run_nevergrad_optimization trial (o :: rest) =
        some (RidgeModel.runBest trial ⟨o, 1, RidgeModel.solIDStr trial 1⟩ 1 rest) := rfl
    have hmin := RidgeModel.runBest_min trial rest ⟨o, 1, RidgeModel.solIDStr trial 1⟩ 1
    rcases RidgeModel.runBest_cases trial rest ⟨o, 1, RidgeModel.solIDStr trial 1⟩ 1 with
      hid | ⟨j, hj, heq, hless, hfirst⟩
    · refine ⟨0, by simp, ?_, ?_, ?_⟩
      · rw [hrun, hid]
        rfl
      · intro j0 hj0
        cases j0 with
        | zero => exact le_refl _
        | succ j' =>
          have hj' : j' < rest.length := by simpa using hj0
          have hle := hmin.2 (rest.get ⟨j', hj'⟩) (List.get_mem rest j' hj')
          rw [hid] at hle
          exact hle
      · intro j0 hj0
        exact absurd hj0 (Nat.not_lt_zero j0)
    · have hi : j + 1 < (o :: rest).length := by simpa using Nat.succ_lt_succ hj
      have hidx : (1 : ℕ) + j + 1 = (j + 1) + 1 := by omega
      refine ⟨j + 1, hi, ?_, ?_, ?_⟩
      · rw [hrun, heq, hidx]
        rfl
      · intro j0 hj0
        cases j0 with
        | zero => exact le_of_lt hless
        | succ j' =>
          have hj' : j' < rest.length := by simpa using hj0
          have hle := hmin.2 (rest.get ⟨j', hj'⟩) (List.get_mem rest j' hj')
          rw [heq] at hle
          exact hle
      · intro m hm
        cases m with
        | zero => exact hless
        | succ m' =>
          have hm' : m' < j := Nat.lt_of_succ_lt_succ hm
          exact hfirst m' hm'

/-- Witness for C8: a trial of two iterations with losses 5 and 3; the
second iteration is retained with solution id `1_2_1`. -/
theorem c8_best_retention_witness :
    (([⟨5, 0, 0, 0, []⟩, ⟨3, 0, 0, 0, []⟩] : List RidgeModel.IterOut) ≠ []) ∧
    (∃ i, ∃ hi : i < ([⟨5, 0, 0, 0, []⟩, ⟨3, 0, 0, 0, []⟩] : List RidgeModel.IterOut).length,
      RidgeModel.run_nevergrad_optimization 1 [⟨5, 0, 0, 0, []⟩, ⟨3, 0, 0, 0, []⟩] =
        some ⟨([⟨5, 0, 0, 0, []⟩, ⟨3, 0, 0, 0, []⟩] : List RidgeModel.IterOut).get ⟨i, hi⟩,
          i + 1, RidgeModel.solIDStr 1 (i + 1)⟩ ∧
      (∀ j, ∀ hj : j < ([⟨5, 0, 0, 0, []⟩, ⟨3, 0, 0, 0, []⟩] : List RidgeModel.IterOut).length,
        (([⟨5, 0, 0, 0, []⟩, ⟨3, 0, 0, 0, []⟩] : List RidgeModel.IterOut).get ⟨i, hi⟩).loss ≤
        (([⟨5, 0, 0, 0, []⟩, ⟨3, 0, 0, 0, []⟩] : List RidgeModel.IterOut).get ⟨j, hj⟩).loss) ∧
      (∀ j, ∀ hj : j < i,
        (([⟨5, 0, 0, 0, []⟩, ⟨3, 0, 0, 0, []⟩] : List RidgeModel.IterOut).get ⟨i, hi⟩).loss <
        (([⟨5, 0, 0, 0, []⟩, ⟨3, 0, 0, 0, []⟩] : List RidgeModel.IterOut).get
          ⟨j, Nat.lt_trans hj hi⟩).loss)) :=
  ⟨by simp, c8_best_retention 1 [⟨5, 0, 0, 0, []⟩, ⟨3, 0, 0, 0, []⟩] (by simp)⟩

/-- Maximum of a real series (`x.max()`), `0` junk on the empty series. -/
noncomputable def listMaxR : List ℝ → ℝ
  | [] => 0
  | h :: t => t.foldl max h

/-- Minimum of a real series (`x.min()`), `0` junk on the empty series. -/
noncomputable def listMinR : List ℝ → ℝ
  | [] => 0
  | h :: t => t.foldl min h

namespace RidgeModel

/-- `RidgeModelBuilder._hill_transformation`:
`x_scaled = (x - x.min()) / (x.max() - x.min())` followed by
`x_scaled**alpha / (x_scaled**alpha + gamma**alpha)` — gamma is used
directly, not multiplied by `max(x)`. -/
noncomputable def hill_transformation (x : List ℝ) (alpha gamma : ℝ) : List ℝ :=
  x.map (fun v =>
    ((v - listMinR x) / (listMaxR x - listMinR x)) ^ alpha /
      (((v - listMinR x) / (listMaxR x - listMinR x)) ^ alpha + gamma ^ alpha))

/-- NaN-aware view of `_hill_transformation`: when `x.max() = x.min()`
(in particular for an all-zero series) the scaling divides `0` by `0`, so
in float semantics every output entry is NaN; this is modelled by
`none`. -/
noncomputable def hill_transformation_checked (x : List ℝ) (alpha gamma : ℝ) :
    Option (List ℝ) :=
  if listMaxR x = listMinR x then none
  else some (hill_transformation x alpha gamma)

/-- The `X.replace([np.inf, -np.inf], np.nan).fillna(0)` step that
`_prepare_data` applies AFTER the transformations: a column of NaNs
(`none`) becomes a column of zeros. -/
noncomputable def fillnaZero (n : ℕ) : Option (List ℝ) → List ℝ
  | none => List.replicate n 0
  | some l => l

end RidgeModel

namespace FeatureEng

/-- `FeatureEngineering._apply_saturation`:
`x**alpha / (x**alpha + gamma**alpha)` — gamma used directly. -/
noncomputable def apply_saturation (x : List ℝ) (alpha gamma : ℝ) : List ℝ :=
  x.map (fun v => v ^ alpha / (v ^ alpha + gamma ^ alpha))

end FeatureEng

/-- The saturation formula of the claim (and of the spec, section 4.1):
`x^alpha / (x^alpha + gamma_abs^alpha)` with `gamma_abs = gamma * max(x)`.
This definition follows the spec's words and exists only to be compared
with the two implementations above. -/
noncomputable def hillSpecGammaAbs (x : List ℝ) (alpha gamma : ℝ) : List ℝ :=
  x.map (fun v => v ^ alpha / (v ^ alpha + (gamma * listMaxR x) ^ alpha))

theorem getD_map_lt (f : ℝ → ℝ) :
    ∀ (l : List ℝ) (i : ℕ), i < l.length → (l.map f).getD i 0 = f (l.getD i 0) := by
  intro l
  induction l with
  | nil => intro i hi; simp at hi
  | cons a t ih =>
    intro i hi
    cases i with
    | zero => simp
    | succ i' =>
      simp only [List.map_cons, List.getD_cons_succ]
      exact ih i' (by simpa using hi)

/-- C3 (counterexample to the claim as stated).  On the series
`x = [1, 2]` with `alpha = 1`, `gamma = 1/2`, the claimed formula
`x^alpha / (x^alpha + (gamma*max(x))^alpha)` gives `1/2` at index 0, but
`RidgeModelBuilder._hill_transformation` returns `0` (it min-max-scales
`x` first and uses `gamma` directly) and
`FeatureEngineering._apply_saturation` returns `2/3` (it uses `gamma`
directly with no scaling): neither implementation interprets `gamma` as
a fraction of the series maximum. -/
theorem c3_saturation_counterexample :
    (RidgeModel.hill_transformation [1, 2] 1 (1/2)).getD 0 0 = 0 ∧
    (FeatureEng.apply_saturation [1, 2] 1 (1/2)).getD 0 0 = 2/3 ∧
    (hillSpecGammaAbs [1, 2] 1 (1/2)).getD 0 0 = 1/2 ∧
    ((0 : ℝ) ≠ 1/2) ∧ ((2/3 : ℝ) ≠ 1/2) := by
  have hmax : listMaxR [1, 2] = 2 := by
    show max (1 : ℝ) 2 = 2
    exact max_eq_right (by norm_num)
  have hmin : listMinR [1, 2] = 1 := by
    show min (1 : ℝ) 2 = 1
    exact min_eq_left (by norm_num)
  refine ⟨?_, ?_, ?_, by norm_num, by norm_num⟩
  · simp only [RidgeModel.hill_transformation, List.map_cons, List.map_nil,
      List.getD_cons_zero]
    rw [hmax, hmin]
    norm_num [Real.rpow_one]
  · simp only [FeatureEng.apply_saturation, List.map_cons, List.map_nil,
      List.getD_cons_zero]
    norm_num [Real.rpow_one]
  · simp only [hillSpecGammaAbs, List.map_cons, List.map_nil, List.getD_cons_zero]
    rw [hmax]
    norm_num [Real.rpow_one]

/-- C3 (amended).  What the two cited implementations actually compute,
elementwise: `_hill_transformation` returns
`s^alpha / (s^alpha + gamma^alpha)` for the min-max-scaled value
`s = (x[i] - min x) / (max x - min x)`, and `_apply_saturation` returns
`x[i]^alpha / (x[i]^alpha + gamma^alpha)`; in both, `gamma` enters
directly and is never multiplied by `max(x)`. -/
theorem c3_saturation_amended (x : List ℝ) (a g : ℝ) (i : ℕ) (hi : i < x.length) :
    (RidgeModel.hill_transformation x a g).getD i 0 =
      ((x.getD i 0 - listMinR x) / (listMaxR x - listMinR x)) ^ a /
        (((x.getD i 0 - listMinR x) / (listMaxR x - listMinR x)) ^ a + g ^ a) ∧
    (FeatureEng.apply_saturation x a g).getD i 0 =
      (x.getD i 0) ^ a / ((x.getD i 0) ^ a + g ^ a) := by
  constructor
  · simp only [RidgeModel.hill_transformation]
    rw [getD_map_lt _ x i hi]
  · simp only [FeatureEng.apply_saturation]
    rw [getD_map_lt _ x i hi]

/-- Witness for the amended C3 theorem at `x = [1,2]`, `alpha = 1`,
`gamma = 1/2`, index 0. -/
theorem c3_saturation_amended_witness :
    0 < ([1, 2] : List ℝ).length ∧
    ((RidgeModel.hill_transformation [1, 2] 1 (1/2)).getD 0 0 =
      ((([1, 2] : List ℝ).getD 0 0 - listMinR [1, 2]) /
          (listMaxR [1, 2] - listMinR [1, 2])) ^ (1 : ℝ) /
        (((([1, 2] : List ℝ).getD 0 0 - listMinR [1, 2]) /
            (listMaxR [1, 2] - listMinR [1, 2])) ^ (1 : ℝ) + (1/2 : ℝ) ^ (1 : ℝ)) ∧
     (FeatureEng.apply_saturation [1, 2] 1 (1/2)).getD 0 0 =
      (([1, 2] : List ℝ).getD 0 0) ^ (1 : ℝ) /
        ((([1, 2] : List ℝ).getD 0 0) ^ (1 : ℝ) + (1/2 : ℝ) ^ (1 : ℝ))) :=
  ⟨by norm_num, c3_saturation_amended [1, 2] 1 (1/2) 0 (by norm_num)⟩

theorem foldl_max_const_R (t : List ℝ) : ∀ a : ℝ, (∀ x ∈ t, x = a) → t.foldl max a = a := by
  induction t with
  | nil => intro a _; rfl
  | cons y t ih =>
    intro a h
    have hy : y = a := h y (List.mem_cons_self y t)
    subst hy
    simpa [List.foldl] using ih y (fun x hx => h x (List.mem_cons_of_mem y hx))

theorem foldl_min_const_R (t : List ℝ) : ∀ a : ℝ, (∀ x ∈ t, x = a) → t.foldl min a = a := by
  induction t with
  | nil => intro a _; rfl
  | cons y t ih =>
    intro a h
    have hy : y = a := h y (List.mem_cons_self y t)
    subst hy
    simpa [List.foldl] using ih y (fun x hx => h x (List.mem_cons_of_mem y hx))

/-- C9 (counterexample to the claim as stated).  On the all-zero spend
series `[0, 0]` (with `alpha = 1`, `gamma = 1/2`),
`_hill_transformation` computes `x.max() - x.min() = 0` and divides by
it: the result is NaN at every index (`none` in this model), not the
all-zero / finite output the claim requires. -/
theorem c9_allzero_counterexample :
    RidgeModel.hill_transformation_checked [0, 0] 1 (1/2) = none ∧
    RidgeModel.hill_transformation_checked [0, 0] 1 (1/2) ≠ some (List.replicate 2 0) := by
  have h : listMaxR [0, 0] = listMinR [0, 0] := by
    show max (0 : ℝ) 0 = min (0 : ℝ) 0
    simp
  constructor
  · simp only [RidgeModel.hill_transformation_checked, if_pos h]
  · simp only [RidgeModel.hill_transformation_checked, if_pos h]
    exact fun hcontra => Option.noConfusion hcontra

/-- C9 (amended).  On every all-zero (hence constant) series the min-max
scaling of `_hill_transformation` divides by zero and yields NaN at every
index; the NaNs are turned into zeros only afterwards, by the
`replace(...).fillna(0)` step of `_prepare_data`, so the design-matrix
column for an all-zero channel is all zeros only after that later
clean-up, not by the saturation transform itself. -/
theorem c9_allzero_amended (x : List ℝ) (n : ℕ) (a g : ℝ)
    (hx : x = List.replicate n 0) (hn : 0 < n) :
    RidgeModel.hill_transformation_checked x a g = none ∧
    RidgeModel.fillnaZero x.length (RidgeModel.hill_transformation_checked x a g) =
      List.replicate x.length 0 := by
  subst hx
  obtain ⟨m, rfl⟩ : ∃ m, n = m + 1 := ⟨n - 1, by omega⟩
  have hrep : List.replicate (m + 1) (0 : ℝ) = 0 :: List.replicate m 0 :=
    List.replicate_succ 0 (m + 1 - 1)
  have hconst : ∀ y ∈ List.replicate m (0 : ℝ), y = 0 :=
    fun y hy => List.eq_of_mem_replicate hy
  have hmm : listMaxR (List.replicate (m + 1) (0 : ℝ)) =
      listMinR (List.replicate (m + 1) (0 : ℝ)) := by
    rw [hrep]
    show (List.replicate m (0 : ℝ)).foldl max 0 = (List.replicate m (0 : ℝ)).foldl min 0
    rw [foldl_max_const_R _ 0 hconst, foldl_min_const_R _ 0 hconst]
  have hnone : RidgeModel.hill_transformation_checked (List.replicate (m + 1) 0) a g = none := by
    simp only [RidgeModel.hill_transformation_checked, if_pos hmm]
  exact ⟨hnone, by rw [hnone]; rfl⟩

/-- Witness for the amended C9 theorem on the concrete all-zero series
`[0, 0]`. -/
theorem c9_allzero_amended_witness :
    (([0, 0] : List ℝ) = List.replicate 2 0) ∧ 0 < 2 ∧
    (RidgeModel.hill_transformation_checked [0, 0] 1 (1/2) = none ∧
     RidgeModel.fillnaZero ([0, 0] : List ℝ).length
        (RidgeModel.hill_transformation_checked [0, 0] 1 (1/2)) =
      List.replicate ([0, 0] : List ℝ).length 0) :=
  ⟨rfl, by norm_num, c9_allzero_amended [0, 0] 2 1 (1/2) rfl (by norm_num)⟩

namespace RidgeModel

/-- Sum of a real series. -/
noncomputable def listSumR (l : List ℝ) : ℝ := l.foldl (· + ·) 0

/-- `np.mean`. -/
noncomputable def meanR (l : List ℝ) : ℝ := listSumR l / (l.length : ℝ)

/-- The jitter step of `_prepare_data`
(`X = X + 1e-8 * np.random.randn(*X.shape)`) on a single predictor
column, with the global numpy RNG modelled as the stream `noise` and a
cursor `p`: entry `i` receives `1e-8 * noise (p + i)`, and the cursor
advances by one consumed draw per entry. -/
noncomputable def addJitter (noise : ℕ → ℝ) : ℕ → List ℝ → List ℝ
  | _, [] => []
  | p, v :: rest => (v + (1 / 100000000) * noise p) :: addJitter noise (p + 1) rest

/-- sklearn's `Ridge(alpha=lam, fit_intercept=True).fit(X, y)` for a
single predictor column: the unique minimiser of
`‖y - w*x - b‖² + lam*w²` (intercept unpenalised), via the centred normal
equation `w = Σ xc*yc / (Σ xc² + lam)`, `b = mean y - w * mean x`.
Returns `(coef, intercept)`. -/
noncomputable def ridge_fit (xs ys : List ℝ) (lam : ℝ) : ℝ × ℝ :=
  let xb := meanR xs
  let yb := meanR ys
  let sxy := listSumR (List.zipWith (fun u v => (u - xb) * (v - yb)) xs ys)
  let sxx := listSumR (xs.map (fun u => (u - xb) * (u - xb)))
  let w := sxy / (sxx + lam)
  (w, yb - w * xb)

/-- `np.sum(coefs == 0)` as a real number. -/
noncomputable def countZerosR : List ℝ → ℝ
  | [] => 0
  | c :: rest => (if c = 0 then 1 else 0) + countZerosR rest

/-- `RidgeModelBuilder._calculate_rssd`:
`rssd = sqrt(sum(coefs**2))`, multiplied by
`1 + (#zero coefficients / #coefficients)` when `rssd_zero_penalty`. -/
noncomputable def calculate_rssd (coefs : List ℝ) (rssdZeroPenalty : Bool) : ℝ :=
  let rssd := Real.sqrt (listSumR (coefs.map (fun c => c * c)))
  if rssdZeroPenalty then rssd * (1 + countZerosR coefs / (coefs.length : ℝ))
  else rssd

/-- `sqrt(mean((y - y_pred)**2)) / (y.max() - y.min())`. -/
noncomputable def nrmseOf (ys preds : List ℝ) : ℝ :=
  Real.sqrt (meanR (List.zipWith (fun yv pv => (yv - pv) * (yv - pv)) ys preds)) /
    (listMaxR ys - listMinR ys)

/-- The loss and metrics returned by one `_evaluate_model` call. -/
structure EvalOut where
  loss : ℝ
  nrmse : ℝ
  decompRssd : ℝ
  mape : ℝ

/-- `RidgeModelBuilder._evaluate_model` together with its `_prepare_data`
step, for the branch exercised by a candidate with no per-channel
transformation keys: `ts_validation = False` (whole window is the
training partition), no calibration input (`mape = 0`, objective weights
`[0.5, 0.5]`), `rssd_zero_penalty = True`, a single predictor column and
`lambda` from the candidate.  `_prepare_data`'s NaN/Inf replacement is
the identity on these finite inputs, and its jitter step consumes one
RNG draw per design-matrix entry, so the function takes the RNG cursor
`pos` and returns it advanced — the explicit-state model of the global
numpy RNG. -/
noncomputable def evaluate_model (xs ys : List ℝ) (lam : ℝ) (noise : ℕ → ℝ) (pos : ℕ) :
    EvalOut × ℕ :=
  let xs' := addJitter noise pos xs
  let wb := ridge_fit xs' ys lam
  let preds := xs'.map (fun v => wb.2 + wb.1 * v)
  let nrmse := nrmseOf ys preds
  let rssd := calculate_rssd [wb.1] true
  let loss := (1/2) * nrmse + (1/2) * rssd
  (⟨loss, nrmse, rssd, 0⟩, pos + xs.length)

theorem addJitter_congr (noise : ℕ → ℝ) :
    ∀ (l : List ℝ) (p q : ℕ), (∀ i, i < l.length → noise (p + i) = noise (q + i)) →
      addJitter noise p l = addJitter noise q l := by
  intro l
  induction l with
  | nil => intro p q _; rfl
  | cons v rest ih =>
    intro p q h
    have h0 : noise p = noise q := by
      have := h 0 (by simp)
      simpa using this
    have ht : ∀ i, i < rest.length → noise (p + 1 + i) = noise (q + 1 + i) := by
      intro i hi
      have hp : p + 1 + i = p + (i + 1) := by omega
      have hq : q + 1 + i = q + (i + 1) := by omega
      rw [hp, hq]
      exact h (i + 1) (by simpa using Nat.succ_lt_succ hi)
    simp only [addJitter, h0, ih (p + 1) (q + 1) ht]

end RidgeModel

/-- C5 (amended).  `_evaluate_model` (with its `_prepare_data` step) is a
deterministic function of the hyperparameters, the data AND the RNG
state: whenever the standard-normal draws consumed from two cursor
positions coincide, the two invocations return identical loss and
metrics.  (The counterexample below shows the claim as stated fails:
consecutive in-trial invocations consume different draws.) -/
theorem c5_determinism_amended (xs ys : List ℝ) (lam : ℝ) (noise : ℕ → ℝ) (p q : ℕ)
    (h : ∀ i, i < xs.length → noise (p + i) = noise (q + i)) :
    (RidgeModel.evaluate_model xs ys lam noise p).1 =
      (RidgeModel.evaluate_model xs ys lam noise q).1 := by
  have hj : RidgeModel.addJitter noise p xs = RidgeModel.addJitter noise q xs :=
    RidgeModel.addJitter_congr noise xs p q h
  simp only [RidgeModel.evaluate_model, hj]

/-- Witness for the amended C5 theorem: a constant noise stream makes
any two cursor positions (here 0 and 7) consume equal draws, so the two
evaluations agree. -/
theorem c5_determinism_amended_witness :
    (∀ i, i < ([0, 1] : List ℝ).length →
      (fun _ : ℕ => (0 : ℝ)) (0 + i) = (fun _ : ℕ => (0 : ℝ)) (7 + i)) ∧
    (RidgeModel.evaluate_model [0, 1] [0, 1] 1 (fun _ => 0) 0).1 =
      (RidgeModel.evaluate_model [0, 1] [0, 1] 1 (fun _ => 0) 7).1 :=
  ⟨fun _ _ => rfl,
    c5_determinism_amended [0, 1] [0, 1] 1 (fun _ => 0) 0 7 (fun _ _ => rfl)⟩

namespace RidgeModel

/-- The concrete RNG stream of the C5 counterexample: the fourth
standard-normal draw is `10^8`, all others are `0`. -/
noncomputable def c5noise : ℕ → ℝ := fun k => if k = 3 then 100000000 else 0

end RidgeModel

/-- C5 (counterexample to the claim as stated).  With the design column
`x = [0, 1]`, target `y = [0, 1]`, `lambda = 1` and a fixed RNG stream,
the first `_evaluate_model` call (cursor 0) leaves the RNG cursor at 2
and returns loss `1/3` (NRMSE `1/3`); the immediately following call on
the SAME hyperparameters and data (cursor 2) consumes different jitter
draws and returns loss `1/4` (NRMSE `1/6`).  Two invocations under one
trial seed therefore do not return identical loss and metrics. -/
theorem c5_determinism_counterexample :
    (RidgeModel.evaluate_model [0, 1] [0, 1] 1 RidgeModel.c5noise 0).2 = 2 ∧
    (RidgeModel.evaluate_model [0, 1] [0, 1] 1 RidgeModel.c5noise 0).1.loss = 1/3 ∧
    (RidgeModel.evaluate_model [0, 1] [0, 1] 1 RidgeModel.c5noise 0).1.nrmse = 1/3 ∧
    (RidgeModel.evaluate_model [0, 1] [0, 1] 1 RidgeModel.c5noise 2).1.loss = 1/4 ∧
    (RidgeModel.evaluate_model [0, 1] [0, 1] 1 RidgeModel.c5noise 2).1.nrmse = 1/6 ∧
    ((1 : ℝ)/3 ≠ 1/4) ∧ ((1 : ℝ)/3 ≠ 1/6) := by
  have hA : RidgeModel.addJitter RidgeModel.c5noise 0 [0, 1] = [0, 1] := by
    norm_num [RidgeModel.addJitter, RidgeModel.c5noise]
  have hB : RidgeModel.addJitter RidgeModel.c5noise 2 [0, 1] = [0, 2] := by
    norm_num [RidgeModel.addJitter, RidgeModel.c5noise]
  have hC1 : RidgeModel.ridge_fit [0, 1] [0, 1] 1 = (1/3, 1/3) := by
    norm_num [RidgeModel.ridge_fit, RidgeModel.meanR, RidgeModel.listSumR,
      List.zipWith, List.foldl, List.map]
  have hC2 : RidgeModel.ridge_fit [0, 2] [0, 1] 1 = (1/3, 1/6) := by
    norm_num [RidgeModel.ridge_fit, RidgeModel.meanR, RidgeModel.listSumR,
      List.zipWith, List.foldl, List.map]
  have hC1w : (RidgeModel.ridge_fit [0, 1] [0, 1] 1).1 = 1/3 := by rw [hC1]
  have hC1b : (RidgeModel.ridge_fit [0, 1] [0, 1] 1).2 = 1/3 := by rw [hC1]
  have hC2w : (RidgeModel.ridge_fit [0, 2] [0, 1] 1).1 = 1/3 := by rw [hC2]
  have hC2b : (RidgeModel.ridge_fit [0, 2] [0, 1] 1).2 = 1/6 := by rw [hC2]
  have hmax : listMaxR [0, 1] = 1 := by
    show max (0 : ℝ) 1 = 1
    exact max_eq_right (by norm_num)
  have hmin : listMinR [0, 1] = 0 := by
    show min (0 : ℝ) 1 = 0
    exact min_eq_left (by norm_num)
  have hD1 : RidgeModel.nrmseOf [0, 1]
      (([0, 1] : List ℝ).map (fun v => 1/3 + 1/3 * v)) = 1/3 := by
    have harg : RidgeModel.meanR (List.zipWith (fun yv pv => (yv - pv) * (yv - pv))
        [0, 1] (([0, 1] : List ℝ).map (fun v => 1/3 + 1/3 * v))) = (1/3)^2 := by
      norm_num [RidgeModel.meanR, RidgeModel.listSumR, List.zipWith, List.foldl, List.map]
    simp only [RidgeModel.nrmseOf, harg, hmax, hmin]
    rw [Real.sqrt_sq (by norm_num : (0 : ℝ) ≤ 1/3)]
    norm_num
  have hD2 : RidgeModel.nrmseOf [0, 1]
      (([0, 2] : List ℝ).map (fun v => 1/6 + 1/3 * v)) = 1/6 := by
    have harg : RidgeModel.meanR (List.zipWith (fun yv pv => (yv - pv) * (yv - pv))
        [0, 1] (([0, 2] : List ℝ).map (fun v => 1/6 + 1/3 * v))) = (1/6)^2 := by
      norm_num [RidgeModel.meanR, RidgeModel.listSumR, List.zipWith, List.foldl, List.map]
    simp only [RidgeModel.nrmseOf, harg, hmax, hmin]
    rw [Real.sqrt_sq (by norm_num : (0 : ℝ) ≤ 1/6)]
    norm_num
  have hz : RidgeModel.countZerosR [(1 : ℝ)/3] = 0 := by
    simp only [RidgeModel.countZerosR]
    rw [if_neg (by norm_num : ¬ ((1 : ℝ)/3 = 0))]
    norm_num
  have hs : RidgeModel.listSumR (([(1 : ℝ)/3] : List ℝ).map (fun c => c * c)) = (1/3)^2 := by
    norm_num [RidgeModel.listSumR, List.foldl, List.map]
  have hE : RidgeModel.calculate_rssd [(1 : ℝ)/3] true = 1/3 := by
    simp only [RidgeModel.calculate_rssd, hs, hz, if_pos]
    rw [Real.sqrt_sq (by norm_num : (0 : ℝ) ≤ 1/3)]
    norm_num
  refine ⟨?_, ?_, ?_, ?_, ?_, by norm_num, by norm_num⟩
  · simp only [RidgeModel.evaluate_model]
    norm_num
  · simp only [RidgeModel.evaluate_model, hA, hC1w, hC1b, hD1, hE]
    norm_num
  · simp only [RidgeModel.evaluate_model, hA, hC1w, hC1b, hD1, hE]
  · simp only [RidgeModel.evaluate_model, hB, hC2w, hC2b, hD2, hE]
    norm_num
  · simp only [RidgeModel.evaluate_model, hB, hC2w, hC2b, hD2, hE]
